import Mathlib

/-!
A verification development for the maze solver in `src/maze/src/main.rs`.

The program rasterizes a 2D scene (`Maze`) into an integer `Grid` and runs an
A*-style search (`Grid::path`) over it.  This file gives a shallow embedding of
the core data model and algorithms:

* `f64` scene coordinates are modelled as rationals (`ℚ`); `floor`, `ceil` and
  `round` (half away from zero, as in Rust) are exact.  The `as i32` casts are
  modelled as exact `Int` values (saturation at the `i32` range is not modelled,
  and `i32` arithmetic is modelled as unbounded `Int` arithmetic; the constant
  `i32::MAX` used by the search as an "infinity" sentinel is kept literally).
* `HashSet`s of cells are modelled as `Finset (Int × Int)`, the `HashMap` of
  search nodes as a function `(Int × Int) → Option Node`.
* `std::collections::BinaryHeap` is modelled exactly, including the hole-based
  `sift_up` and `sift_down_to_bottom` routines of the Rust standard library, so
  that the order in which nodes with equal priority are popped matches the
  actual program.
* The `while` loop of `Grid::path` and the predecessor walk of `reconstruct`
  are written with an explicit fuel parameter; a termination theorem below
  proves that the fuel used by `Grid.path` is always sufficient, so the
  embedding computes exactly what the unbounded loops compute.
-/

namespace CpmMaze

/-- The Rust constant `i32::MAX`, used by `Grid::path` as the "unseen" score. -/
def i32MAX : Int := 2147483647

/-- Model of `i32::cmp` (the canonical total-order comparison). -/
def icmp (a b : Int) : Ordering :=
  if a < b then Ordering.lt else if a = b then Ordering.eq else Ordering.gt

/-- The search node record `Node` of the source: coordinate, `f_score`,
`g_score` and the predecessor coordinate `came_from`. -/
structure Node where
  coord : Int × Int
  f_score : Int
  g_score : Int
  came_from : Int × Int
deriving DecidableEq

instance : Inhabited Node := ⟨⟨(0, 0), 0, 0, (0, 0)⟩⟩

/-- `impl Ord for Node`:
`other.f_score.cmp(&self.f_score).then_with(|| self.g_score.cmp(&other.g_score))`.
A node is greater (popped earlier by the max-heap) when its `f_score` is
smaller, ties broken by greater `g_score`. -/
def nodeCmp (a b : Node) : Ordering :=
  (icmp b.f_score a.f_score).then (icmp a.g_score b.g_score)

/-- `<=` on nodes derived from the `Ord` instance. -/
def nodeLe (a b : Node) : Bool :=
  match nodeCmp a b with
  | Ordering.gt => false
  | _ => true

/-- Read of slot `i` of the heap's backing vector (in-bounds in every reachable
call). -/
def hget (a : List Node) (i : Nat) : Node := a.getD i default

/-- The hole-based `sift_up` of Rust's `BinaryHeap`: the hole at `pos` holds
element `x`; parents smaller than `x` are moved down until `pos = start` or a
parent at least `x` is found, then `x` is written into the hole.  The first
argument is structural-recursion fuel; every caller passes `pos + 1`, and since
each step moves the hole to `(pos - 1) / 2 < pos` while consuming one unit of
fuel, the fuel-exhausted case is unreachable. -/
def siftUpGo (x : Node) (start : Nat) : Nat → List Node → Nat → List Node
  | 0, a, pos => a.set pos x
  | fuel + 1, a, pos =>
    if pos ≤ start then a.set pos x
    else if nodeLe x (hget a ((pos - 1) / 2)) then a.set pos x
    else siftUpGo x start fuel (a.set pos (hget a ((pos - 1) / 2))) ((pos - 1) / 2)

/-- `BinaryHeap::push`: append, then `sift_up(0, old_len)`. -/
def heapPush (a : List Node) (x : Node) : List Node :=
  siftUpGo x 0 (a.length + 1) (a ++ [x]) a.length

/-- The descent phase of `sift_down_to_bottom`: move the hole down along the
greater-child path all the way to the bottom, returning the final array and
hole position.  The first argument is structural-recursion fuel; the caller
passes `endi`, and since the hole position strictly increases while staying
below `endi`, the fuel-exhausted case is unreachable. -/
def sdbGo : Nat → Nat → List Node → Nat → List Node × Nat
  | 0, _, a, pos => (a, pos)
  | fuel + 1, endi, a, pos =>
    if 2 * pos + 1 ≤ endi - 2 then
      sdbGo fuel endi
        (a.set pos (hget a
          (if nodeLe (hget a (2 * pos + 1)) (hget a (2 * pos + 1 + 1)) then 2 * pos + 1 + 1
           else 2 * pos + 1)))
        (if nodeLe (hget a (2 * pos + 1)) (hget a (2 * pos + 1 + 1)) then 2 * pos + 1 + 1
         else 2 * pos + 1)
    else if 2 * pos + 1 = endi - 1 then (a.set pos (hget a (2 * pos + 1)), 2 * pos + 1)
    else (a, pos)

/-- `BinaryHeap::sift_down_to_bottom(pos)`: take the element at `pos` out, move
the hole to the bottom along greater children, place the element there and sift
it back up towards `pos`. -/
def siftDownToBottom (a : List Node) (pos : Nat) : List Node :=
  siftUpGo (hget a pos) pos ((sdbGo a.length a.length a pos).2 + 1)
    (sdbGo a.length a.length a pos).1 (sdbGo a.length a.length a pos).2

/-- `BinaryHeap::pop`: remove the last element; if the heap is still non-empty,
swap it with the root and restore the heap property with
`sift_down_to_bottom(0)`.  Returns the old root. -/
def heapPop (a : List Node) : Option (Node × List Node) :=
  match a.getLast? with
  | none => none
  | some item =>
    match a.dropLast with
    | [] => some (item, [])
    | r0 :: rtail => some (r0, siftDownToBottom (item :: rtail) 0)

/-- The heuristic `d` of the source: `(a.0 - b.0) + (a.1 - b.1)` — a signed
combination, not the absolute-value Manhattan distance. -/
def d (a b : Int × Int) : Int := (a.1 - b.1) + (a.2 - b.2)

/-- The rasterized grid: start/end cells, dimensions, and the blocked set. -/
structure Grid where
  start : Int × Int
  endCell : Int × Int
  width : Int
  height : Int
  walls : Finset (Int × Int)

/-- The four candidate moves and their filter from the `neighbors` closure of
`Grid::path`: a candidate is kept iff it is not a wall and lies inside
`[0,width) × [0,height)`. -/
def neighborsOf (g : Grid) (c : Int × Int) : List (Int × Int) :=
  [(c.1 - 1, c.2), (c.1 + 1, c.2), (c.1, c.2 - 1), (c.1, c.2 + 1)].filter
    (fun cc =>
      if cc ∈ g.walls then false
      else if cc.1 < 0 ∨ cc.2 < 0 ∨ g.width ≤ cc.1 ∨ g.height ≤ cc.2 then false
      else true)

/-- The mutable state of the search loop: the `BinaryHeap` `open_set`, the
`HashSet` `open_set_map`, and the `HashMap` `nodes`. -/
structure SearchState where
  openSet : List Node
  openMap : Finset (Int × Int)
  nodes : (Int × Int) → Option Node

/-- The initial node built for `start`. -/
def startNode (g : Grid) : Node :=
  ⟨g.start, d g.start g.endCell, 0, g.start⟩

/-- The state just before the loop: start node pushed and recorded. -/
def initState (g : Grid) : SearchState :=
  { openSet := heapPush [] (startNode g)
    openMap := {g.start}
    nodes := fun c => if c = g.start then some (startNode g) else none }

/-- `nodes.entry(ncoord).or_insert(...)`: the existing entry, or the fresh
record with `i32::MAX` scores and the popped node as predecessor. -/
def orInsert (st : SearchState) (current : Node) (ncoord : Int × Int) : Node :=
  match st.nodes ncoord with
  | some n => n
  | none => ⟨ncoord, i32MAX, i32MAX, current.coord⟩

/-- One neighbor relaxation from the loop body: `or_insert` the entry, and if
`tentative < g_score`, update the entry (`g_score`, `f_score`, `came_from`) and
push a copy unless the coordinate is already pending. -/
def expandOne (g : Grid) (current : Node) (st : SearchState) (ncoord : Int × Int) :
    SearchState :=
  if current.g_score + 1 < (orInsert st current ncoord).g_score then
    if ncoord ∈ st.openMap then
      { st with
        nodes := fun c =>
          if c = ncoord then
            some ⟨ncoord, current.g_score + 1 + d g.endCell ncoord, current.g_score + 1,
              current.coord⟩
          else st.nodes c }
    else
      { st with
        nodes := fun c =>
          if c = ncoord then
            some ⟨ncoord, current.g_score + 1 + d g.endCell ncoord, current.g_score + 1,
              current.coord⟩
          else st.nodes c
        openMap := insert ncoord st.openMap
        openSet := heapPush st.openSet
          ⟨ncoord, current.g_score + 1 + d g.endCell ncoord, current.g_score + 1,
            current.coord⟩ }
  else
    { st with
      nodes := fun c =>
        if c = ncoord then some (orInsert st current ncoord) else st.nodes c }

/-- Relax all valid neighbors of the popped node, in source order. -/
def expand (g : Grid) (current : Node) (st : SearchState) : SearchState :=
  (neighborsOf g current.coord).foldl (expandOne g current) st

/-- The search loop of `Grid::path` with explicit fuel.  `none` means the fuel
ran out (never happens for the fuel used by `Grid.path`, as proved by the
termination theorem below); `some (none, st)` means the open set was exhausted;
`some (some n, st)` means the target was popped. -/
def searchLoop (g : Grid) : Nat → SearchState → Option (Option Node × SearchState)
  | 0, _ => none
  | fuel + 1, st =>
    match heapPop st.openSet with
    | none => some (none, st)
    | some (current, rest) =>
      if current.coord = g.endCell then
        some (some current,
          { st with openSet := rest, openMap := st.openMap.erase current.coord })
      else
        searchLoop g fuel
          (expand g current
            { st with openSet := rest, openMap := st.openMap.erase current.coord })

/-- Fuel that always suffices for the search loop (proved by the termination
theorem below). -/
def sufficientFuel (g : Grid) : Nat :=
  (g.width.toNat * g.height.toNat + 1) * i32MAX.toNat + 2

/-- The `reconstruct` closure: walk `came_from` links from `coord` until the
start cell, pushing the visited cells, then push the start cell.  The result is
in target-to-start order (the source never reverses it).  The `none` entry case
models the `unwrap` panic and the fuel running out is unreachable, both by the
invariants proved below. -/
def reconstruct (g : Grid) (nodes : (Int × Int) → Option Node) :
    Nat → Int × Int → List (Int × Int) → List (Int × Int)
  | 0, _, acc => acc
  | fuel + 1, coord, acc =>
    if coord = g.start then acc ++ [g.start]
    else
      match nodes coord with
      | none => acc
      | some n => reconstruct g nodes fuel n.came_from (acc ++ [coord])

/-- `Grid::path`: run the search; on success walk the predecessor links,
otherwise return the empty vector. -/
def Grid.path (g : Grid) : List (Int × Int) :=
  match searchLoop g (sufficientFuel g) (initState g) with
  | some (some n, st) => reconstruct g st.nodes i32MAX.toNat n.coord []
  | _ => []

/-- The `nodes` table at the end of the search run performed by `Grid.path`. -/
def finalNodes (g : Grid) (c : Int × Int) : Option Node :=
  match searchLoop g (sufficientFuel g) (initState g) with
  | some (_, st) => st.nodes c
  | none => none

/-! ### Derived predicates -/

/-- Cell `c` lies inside `[0,width) × [0,height)`. -/
def InBounds (g : Grid) (c : Int × Int) : Prop :=
  0 ≤ c.1 ∧ 0 ≤ c.2 ∧ c.1 < g.width ∧ c.2 < g.height

instance (g : Grid) (c : Int × Int) : Decidable (InBounds g c) := by
  unfold InBounds; infer_instance

/-- Cell `c` passes the neighbor filter: not a wall and in bounds. -/
def ValidCell (g : Grid) (c : Int × Int) : Prop := c ∉ g.walls ∧ InBounds g c

instance (g : Grid) (c : Int × Int) : Decidable (ValidCell g c) := by
  unfold ValidCell; infer_instance

/-- 4-adjacency: the two cells differ by exactly 1 in exactly one coordinate. -/
def Adjacent (a b : Int × Int) : Prop := |a.1 - b.1| + |a.2 - b.2| = 1

instance (a b : Int × Int) : Decidable (Adjacent a b) := by
  unfold Adjacent; infer_instance

/-! ### Search invariants and termination measure -/

/-- The best `g_score` recorded for `c` (`i32::MAX` when unseen, matching the
`or_insert` default). -/
def storedG (st : SearchState) (c : Int × Int) : Int :=
  match st.nodes c with
  | some e => e.g_score
  | none => i32MAX

/-- Well-formedness of a pending heap copy: its coordinate is the start cell or
a valid cell, its `g_score` is a small nonnegative value, and the `nodes` table
holds an entry for its coordinate that is at least as good. -/
def HeapNodeOk (g : Grid) (st : SearchState) (n : Node) : Prop :=
  (n.coord = g.start ∨ ValidCell g n.coord) ∧ 0 ≤ n.g_score ∧ n.g_score ≤ i32MAX - 1 ∧
    ∃ e, st.nodes n.coord = some e ∧ e.g_score ≤ n.g_score

/-- Well-formedness of a `nodes`-table entry: nonnegative `g_score` bounded by
`i32::MAX`, and for non-start cells: the cell is valid, `came_from` is an
adjacent cell whose entry has a strictly smaller `g_score`, and (when the entry
has been relaxed at least once) `f_score = g_score + d(end, coord)`. -/
def EntryOk (g : Grid) (st : SearchState) (c : Int × Int) (e : Node) : Prop :=
  0 ≤ e.g_score ∧ e.g_score ≤ i32MAX ∧
    (c ≠ g.start → ValidCell g c ∧ Adjacent e.came_from c ∧
      (∃ e', st.nodes e.came_from = some e' ∧ e'.g_score < e.g_score) ∧
      (e.g_score < i32MAX → e.f_score = e.g_score + d g.endCell c))

/-- The main loop invariant of `Grid::path`. -/
structure Inv (g : Grid) (st : SearchState) : Prop where
  heapOk : ∀ n ∈ st.openSet, HeapNodeOk g st n
  startMem : st.nodes g.start = some (startNode g)
  mapOk : ∀ c e, st.nodes c = some e → EntryOk g st c e

/-- Facts available about a node just popped from a well-formed heap. -/
def CurrentOk (st : SearchState) (current : Node) : Prop :=
  0 ≤ current.g_score ∧ current.g_score ≤ i32MAX - 1 ∧
    ∃ e, st.nodes current.coord = some e ∧ e.g_score ≤ current.g_score

/-- All cells the search can ever record: the in-bounds cells plus the start
cell. -/
def Cells (g : Grid) : Finset (Int × Int) :=
  insert g.start (Finset.Icc 0 (g.width - 1) ×ˢ Finset.Icc 0 (g.height - 1))

/-- Termination measure: total recorded `g_score` potential plus the heap
size.  Every loop iteration strictly decreases it. -/
def searchMeasure (g : Grid) (st : SearchState) : Nat :=
  (∑ c ∈ Cells g, (storedG st c).toNat) + st.openSet.length

/-! ### The rasterizer (`Maze` and `Maze::grid`) -/

/-- `f64::round` rounds half away from zero. -/
def rustRound (q : ℚ) : Int := if 0 ≤ q then ⌊q + 1 / 2⌋ else ⌈q - 1 / 2⌉

/-- The scene: origin and size of the background, start/end points, and the
obstacle rectangles `(x, y, width, height)`.  `f64` coordinates are modelled
as rationals. -/
structure Maze where
  origin : ℚ × ℚ
  start : ℚ × ℚ
  endPoint : ℚ × ℚ
  size : ℚ × ℚ
  walls : List (ℚ × ℚ × ℚ × ℚ)

/-- `Maze::grid`: rasterize the scene.  For each wall rectangle the translated
coordinate range `[floor(x - ox), ceil(x - ox + w)) × [floor(y - oy),
ceil(y - oy + h))` of integer cells is added to the blocked set; start/end are
rounded to the nearest cell and the dimensions are `ceil` of the size. -/
def Maze.grid (m : Maze) : Grid :=
  { start := (rustRound (m.start.1 - m.origin.1), rustRound (m.start.2 - m.origin.2))
    endCell := (rustRound (m.endPoint.1 - m.origin.1), rustRound (m.endPoint.2 - m.origin.2))
    width := ⌈m.size.1⌉
    height := ⌈m.size.2⌉
    walls := m.walls.foldl (fun acc w =>
      acc ∪
        Finset.Icc (⌊w.1 - m.origin.1⌋) (⌈w.1 - m.origin.1 + w.2.2.1⌉ - 1) ×ˢ
          Finset.Icc (⌊w.2.1 - m.origin.2⌋) (⌈w.2.1 - m.origin.2 + w.2.2.2⌉ - 1)) ∅ }

/-! ### Concrete instances used by counterexamples and witnesses -/

/-- 2×1 empty grid, start `(0,0)`, end `(1,0)`. -/
def gC1a : Grid := ⟨(0, 0), (1, 0), 2, 1, ∅⟩

/-- 3×3 grid with two walls, start `(0,0)`, end `(2,0)`. -/
def gC1b : Grid := ⟨(0, 0), (2, 0), 3, 3, {(1, 0), (1, 1)}⟩

/-- 1×1 empty grid with an out-of-bounds start `(-1,0)` and end `(0,0)`. -/
def gC2a : Grid := ⟨(-1, 0), (0, 0), 1, 1, ∅⟩

/-- 3×3 empty grid with an out-of-bounds end `(5,5)`. -/
def gC2b : Grid := ⟨(0, 0), (5, 5), 3, 3, ∅⟩

/-- 2×4 empty grid, start `(0,0)`, end `(0,3)`: the search returns a path of
length 5 although the grid distance is 3. -/
def gC3a : Grid := ⟨(0, 0), (0, 3), 2, 4, ∅⟩

/-- 3×3 empty grid, start `(0,0)`, end `(2,1)`. -/
def gC3b : Grid := ⟨(0, 0), (2, 1), 3, 3, ∅⟩

/-- 3×3 empty grid, start `(0,0)`, end `(2,2)`. -/
def gC4a : Grid := ⟨(0, 0), (2, 2), 3, 3, ∅⟩

/-- 2×2 empty grid, start `(0,0)`, end `(1,1)`. -/
def gC4b : Grid := ⟨(0, 0), (1, 1), 2, 2, ∅⟩

/-- 3×3 empty grid with coinciding start and end `(1,1)`. -/
def gC7 : Grid := ⟨(1, 1), (1, 1), 3, 3, ∅⟩

/-- 5×5 grid whose start `(2,2)` is enclosed by a gap-free ring of blocked
cells; end `(0,0)`. -/
def gC8 : Grid :=
  ⟨(2, 2), (0, 0), 5, 5, {(1, 1), (2, 1), (3, 1), (1, 2), (3, 2), (1, 3), (2, 3), (3, 3)}⟩

/-- The region enclosed by the ring of `gC8`: just the start cell. -/
def c8Region : Finset (Int × Int) := {(2, 2)}

/-- 1×1 empty grid with an out-of-bounds start, used to exhibit an
out-of-bounds start cell appearing in a returned path. -/
def gC10 : Grid := ⟨(-1, 0), (0, 0), 1, 1, ∅⟩

/-- Scene with one obstacle rectangle at `x = 1.5`, width 2 (so cells
`{1,2,3}` of row 0 must be blocked). -/
def mC6 : Maze :=
  { origin := (0, 0)
    start := (1 / 2, 1 / 2)
    endPoint := (9 / 2, 3 / 2)
    size := (5, 2)
    walls := [(3 / 2, 0, 2, 1)] }

/-! ## Basic lemmas about the heap -/

theorem hget_mem {a : List Node} {i : Nat} (h : i < a.length) : hget a i ∈ a := by
  unfold hget
  rw [List.getD_eq_getElem a default h]
  exact List.getElem_mem h

theorem siftUpGo_length (x : Node) (start : Nat) :
    ∀ (fuel : Nat) (a : List Node) (pos : Nat),
      (siftUpGo x start fuel a pos).length = a.length := by
  intro fuel
  induction fuel with
  | zero => intro a pos; simp [siftUpGo]
  | succ n ih =>
    intro a pos
    rw [siftUpGo]
    split
    · exact List.length_set a pos x
    · split
      · exact List.length_set a pos x
      · rw [ih]; exact List.length_set _ _ _

theorem siftUpGo_subset (x : Node) (start : Nat) :
    ∀ (fuel : Nat) (a : List Node) (pos : Nat), pos < a.length →
      ∀ y ∈ siftUpGo x start fuel a pos, y = x ∨ y ∈ a := by
  intro fuel
  induction fuel with
  | zero =>
    intro a pos _ y hy
    simp only [siftUpGo] at hy
    rcases List.mem_or_eq_of_mem_set hy with h | h
    · exact Or.inr h
    · exact Or.inl h
  | succ n ih =>
    intro a pos hpos y hy
    rw [siftUpGo] at hy
    split at hy
    · rcases List.mem_or_eq_of_mem_set hy with h | h
      · exact Or.inr h
      · exact Or.inl h
    · rename_i hns
      split at hy
      · rcases List.mem_or_eq_of_mem_set hy with h | h
        · exact Or.inr h
        · exact Or.inl h
      · have hplt : (pos - 1) / 2 < a.length := by
          have h2 : (pos - 1) / 2 ≤ pos - 1 := Nat.div_le_self _ _
          omega
        have hplt' : (pos - 1) / 2 < (a.set pos (hget a ((pos - 1) / 2))).length := by
          rw [List.length_set]; exact hplt
        rcases ih _ _ hplt' y hy with h | h
        · exact Or.inl h
        · rcases List.mem_or_eq_of_mem_set h with h2 | h2
          · exact Or.inr h2
          · exact Or.inr (h2 ▸ hget_mem hplt)

theorem sdbGo_length :
    ∀ (fuel endi : Nat) (a : List Node) (pos : Nat),
      (sdbGo fuel endi a pos).1.length = a.length := by
  intro fuel
  induction fuel with
  | zero => intro endi a pos; simp [sdbGo]
  | succ n ih =>
    intro endi a pos
    rw [sdbGo]
    split
    · rw [ih]; exact List.length_set _ _ _
    · split
      · exact List.length_set _ _ _
      · rfl

theorem sdbGo_pos_lt :
    ∀ (fuel endi : Nat) (a : List Node) (pos : Nat), pos < endi →
      (sdbGo fuel endi a pos).2 < endi := by
  intro fuel
  induction fuel with
  | zero => intro endi a pos h; simpa [sdbGo] using h
  | succ n ih =>
    intro endi a pos hpos
    rw [sdbGo]
    split
    · rename_i hch
      apply ih
      split <;> omega
    · split
      · rename_i hch hch2
        omega
      · exact hpos

theorem sdbGo_subset :
    ∀ (fuel endi : Nat) (a : List Node) (pos : Nat), endi ≤ a.length →
      ∀ y ∈ (sdbGo fuel endi a pos).1, y ∈ a := by
  intro fuel
  induction fuel with
  | zero => intro endi a pos _ y hy; simpa [sdbGo] using hy
  | succ n ih =>
    intro endi a pos hlen y hy
    rw [sdbGo] at hy
    split at hy
    · rename_i hch
      have hchlt : (if nodeLe (hget a (2 * pos + 1)) (hget a (2 * pos + 1 + 1))
          then 2 * pos + 1 + 1 else 2 * pos + 1) < a.length := by
        split <;> omega
      have hlen' : endi ≤ (a.set pos (hget a
          (if nodeLe (hget a (2 * pos + 1)) (hget a (2 * pos + 1 + 1))
           then 2 * pos + 1 + 1 else 2 * pos + 1))).length := by
        rw [List.length_set]; exact hlen
      have hmem := ih _ _ _ hlen' y hy
      rcases List.mem_or_eq_of_mem_set hmem with h | h
      · exact h
      · exact h ▸ hget_mem hchlt
    · split at hy
      · rename_i hch hch2
        have hlt : 2 * pos + 1 < a.length := by omega
        rcases List.mem_or_eq_of_mem_set hy with h | h
        · exact h
        · exact h ▸ hget_mem hlt
      · exact hy

theorem heapPush_length (a : List Node) (x : Node) :
    (heapPush a x).length = a.length + 1 := by
  unfold heapPush
  rw [siftUpGo_length, List.length_append, List.length_singleton]

theorem heapPush_subset (a : List Node) (x : Node) :
    ∀ y ∈ heapPush a x, y = x ∨ y ∈ a := by
  intro y hy
  unfold heapPush at hy
  have hpos : a.length < (a ++ [x]).length := by
    rw [List.length_append, List.length_singleton]; omega
  rcases siftUpGo_subset x 0 _ _ _ hpos y hy with h | h
  · exact Or.inl h
  · rcases List.mem_append.1 h with h2 | h2
    · exact Or.inr h2
    · exact Or.inl (List.mem_singleton.1 h2)

theorem siftDownToBottom_length (a : List Node) (pos : Nat) :
    (siftDownToBottom a pos).length = a.length := by
  unfold siftDownToBottom
  rw [siftUpGo_length, sdbGo_length]

theorem siftDownToBottom_subset (a : List Node) (pos : Nat) (hpos : pos < a.length) :
    ∀ y ∈ siftDownToBottom a pos, y = hget a pos ∨ y ∈ a := by
  intro y hy
  unfold siftDownToBottom at hy
  have h2 : (sdbGo a.length a.length a pos).2 < (sdbGo a.length a.length a pos).1.length := by
    rw [sdbGo_length]; exact sdbGo_pos_lt _ _ _ _ hpos
  rcases siftUpGo_subset _ _ _ _ _ h2 y hy with h | h
  · exact Or.inl h
  · exact Or.inr (sdbGo_subset _ _ _ _ le_rfl y h)

theorem heapPop_eq_none {a : List Node} : heapPop a = none ↔ a = [] := by
  constructor
  · intro h
    unfold heapPop at h
    cases hl : a.getLast? with
    | none => exact List.getLast?_eq_none_iff.1 hl
    | some item =>
      rw [hl] at h
      cases hd : a.dropLast with
      | nil => rw [hd] at h; exact absurd h (by simp)
      | cons r0 rtail => rw [hd] at h; exact absurd h (by simp)
  · intro h; subst h; rfl

theorem heapPop_spec {a : List Node} {n : Node} {rest : List Node}
    (h : heapPop a = some (n, rest)) :
    n ∈ a ∧ (∀ y ∈ rest, y ∈ a) ∧ rest.length + 1 = a.length := by
  unfold heapPop at h
  cases hl : a.getLast? with
  | none => rw [hl] at h; exact absurd h (by simp)
  | some item =>
    rw [hl] at h
    have hitem : item ∈ a := by
      rcases @List.mem_getLast?_eq_getLast _ a item hl with ⟨hne, heq⟩
      exact heq ▸ List.getLast_mem hne
    have hne : a ≠ [] := by
      intro hcon; rw [hcon] at hl; exact absurd hl (by simp)
    have hlena : 1 ≤ a.length := List.length_pos.2 hne
    cases hd : a.dropLast with
    | nil =>
      rw [hd] at h
      simp only [Option.some.injEq, Prod.mk.injEq] at h
      obtain ⟨rfl, rfl⟩ := h
      refine ⟨hitem, by simp, ?_⟩
      have h1 := List.length_dropLast a
      rw [hd] at h1
      simp only [List.length_nil] at h1
      simp only [List.length_nil]
      omega
    | cons r0 rtail =>
      rw [hd] at h
      simp only [Option.some.injEq, Prod.mk.injEq] at h
      obtain ⟨rfl, rfl⟩ := h
      have hr0 : r0 ∈ a := by
        apply List.mem_of_mem_dropLast
        rw [hd]; exact List.mem_cons_self _ _
      have hlen0 : (0 : Nat) < (item :: rtail).length := by simp
      refine ⟨hr0, ?_, ?_⟩
      · intro y hy
        rcases siftDownToBottom_subset _ _ hlen0 y hy with h2 | h2
        · have h3 : hget (item :: rtail) 0 = item := rfl
          rw [h3] at h2
          exact h2 ▸ hitem
        · rcases List.mem_cons.1 h2 with h3 | h3
          · exact h3 ▸ hitem
          · apply List.mem_of_mem_dropLast
            rw [hd]; exact List.mem_cons_of_mem _ h3
      · rw [siftDownToBottom_length]
        have h1 := List.length_dropLast a
        rw [hd] at h1
        simp only [List.length_cons] at h1 ⊢
        omega

/-! ## Lemmas about neighbors and adjacency -/

theorem Adjacent.symm {a b : Int × Int} (h : Adjacent a b) : Adjacent b a := by
  unfold Adjacent at *
  rw [abs_sub_comm b.1 a.1, abs_sub_comm b.2 a.2]
  exact h

theorem Adjacent.ne {a b : Int × Int} (h : Adjacent a b) : a ≠ b := by
  intro hcon
  subst hcon
  unfold Adjacent at h
  simp at h

theorem mem_neighborsOf {g : Grid} {c c' : Int × Int} (h : c' ∈ neighborsOf g c) :
    ValidCell g c' ∧ Adjacent c c' := by
  unfold neighborsOf at h
  rw [List.mem_filter] at h
  obtain ⟨hmem, hcond⟩ := h
  constructor
  · by_cases h1 : c' ∈ g.walls
    · rw [if_pos h1] at hcond; exact absurd hcond (by simp)
    · rw [if_neg h1] at hcond
      by_cases h2 : c'.1 < 0 ∨ c'.2 < 0 ∨ g.width ≤ c'.1 ∨ g.height ≤ c'.2
      · rw [if_pos h2] at hcond; exact absurd hcond (by simp)
      · push_neg at h2
        exact ⟨h1, by unfold InBounds; omega⟩
  · simp only [List.mem_cons, List.mem_singleton, List.not_mem_nil, or_false] at hmem
    rcases hmem with rfl | rfl | rfl | rfl
    · show |c.1 - (c.1 - 1)| + |c.2 - c.2| = 1
      have h1 : c.1 - (c.1 - 1) = 1 := by ring
      have h2 : c.2 - c.2 = 0 := by ring
      rw [h1, h2, abs_one, abs_zero]
      norm_num
    · show |c.1 - (c.1 + 1)| + |c.2 - c.2| = 1
      have h1 : c.1 - (c.1 + 1) = -1 := by ring
      have h2 : c.2 - c.2 = 0 := by ring
      rw [h1, h2, abs_neg, abs_one, abs_zero]
      norm_num
    · show |c.1 - c.1| + |c.2 - (c.2 - 1)| = 1
      have h1 : c.2 - (c.2 - 1) = 1 := by ring
      have h2 : c.1 - c.1 = 0 := by ring
      rw [h1, h2, abs_one, abs_zero]
      norm_num
    · show |c.1 - c.1| + |c.2 - (c.2 + 1)| = 1
      have h1 : c.2 - (c.2 + 1) = -1 := by ring
      have h2 : c.1 - c.1 = 0 := by ring
      rw [h1, h2, abs_neg, abs_one, abs_zero]
      norm_num

theorem valid_of_mem_neighborsOf {g : Grid} {c c' : Int × Int}
    (h : c' ∈ neighborsOf g c) : ValidCell g c' :=
  (mem_neighborsOf h).1

/-- Any list of pairwise-adjacent cells from `a` to `b` has at least
`|a - b|₁ + 1` elements. -/
theorem chain_manhattan :
    ∀ (l : List (Int × Int)) (a b : Int × Int), List.Chain' Adjacent l →
      l.head? = some a → l.getLast? = some b →
      |a.1 - b.1| + |a.2 - b.2| + 1 ≤ (l.length : Int) := by
  intro l
  induction l with
  | nil => intro a b _ h; exact absurd h (by simp)
  | cons x t ih =>
    intro a b hchain hhead hlast
    have hax : x = a := by
      simpa using hhead
    cases t with
    | nil =>
      have hxb : x = b := by
        simpa using hlast
      rw [← hax, ← hxb]
      simp
    | cons y t2 =>
      have hadj : Adjacent x y := (List.chain'_cons.1 hchain).1
      have hchain2 : List.Chain' Adjacent (y :: t2) := (List.chain'_cons.1 hchain).2
      have hlast2 : (y :: t2).getLast? = some b := by
        rw [← hlast, List.getLast?_cons_cons]
      have hIH := ih y b hchain2 rfl hlast2
      have htri1 : |a.1 - b.1| ≤ |a.1 - y.1| + |y.1 - b.1| := abs_sub_le _ _ _
      have htri2 : |a.2 - b.2| ≤ |a.2 - y.2| + |y.2 - b.2| := abs_sub_le _ _ _
      have hone : |a.1 - y.1| + |a.2 - y.2| = 1 := hax ▸ hadj
      simp only [List.length_cons] at hIH ⊢
      push_cast at hIH ⊢
      omega

/-! ## The search invariant -/

theorem inv_init (g : Grid) : Inv g (initState g) := by
  refine ⟨?_, ?_, ?_⟩
  · intro n hn
    have hinit : (initState g).openSet = [startNode g] := rfl
    rw [hinit] at hn
    rcases List.mem_singleton.1 hn with rfl
    refine ⟨Or.inl rfl, le_refl 0, ?_, startNode g, ?_, le_refl 0⟩
    · show (0 : Int) ≤ i32MAX - 1
      decide
    · show (if g.start = g.start then some (startNode g) else none) = some (startNode g)
      rw [if_pos rfl]
  · show (if g.start = g.start then some (startNode g) else none) = some (startNode g)
    rw [if_pos rfl]
  · intro c e hce
    have hce' : (if c = g.start then some (startNode g) else none) = some e := hce
    by_cases hc : c = g.start
    · rw [if_pos hc] at hce'
      obtain rfl := Option.some.inj hce'
      refine ⟨le_refl 0, ?_, fun hne => absurd hc hne⟩
      show (0 : Int) ≤ i32MAX
      decide
    · rw [if_neg hc] at hce'
      exact Option.noConfusion hce'

theorem storedG_eq_orInsert {st : SearchState} {current : Node} {ncoord : Int × Int} :
    storedG st ncoord = (orInsert st current ncoord).g_score := by
  unfold storedG orInsert
  cases hent : st.nodes ncoord <;> simp

theorem orInsert_g_le_max {g : Grid} {st : SearchState} {current : Node}
    {ncoord : Int × Int} (hInv : Inv g st) :
    (orInsert st current ncoord).g_score ≤ i32MAX := by
  unfold orInsert
  cases hent : st.nodes ncoord with
  | some n => exact (hInv.mapOk _ _ hent).2.1
  | none => exact le_refl _

theorem expandOne_inv {g : Grid} {current : Node} {st : SearchState} {ncoord : Int × Int}
    (hInv : Inv g st) (hCur : CurrentOk st current)
    (hN : ncoord ∈ neighborsOf g current.coord) :
    Inv g (expandOne g current st ncoord) ∧
      CurrentOk (expandOne g current st ncoord) current := by
  obtain ⟨hval, hadj⟩ := mem_neighborsOf hN
  obtain ⟨hc0, hc1, ec, hec, hecle⟩ := hCur
  have hnecur : current.coord ≠ ncoord := hadj.ne
  unfold expandOne
  by_cases hrel : current.g_score + 1 < (orInsert st current ncoord).g_score
  · rw [if_pos hrel]
    have hnstart : ncoord ≠ g.start := by
      intro hcon
      have hsn : orInsert st current ncoord = startNode g := by
        unfold orInsert
        rw [hcon, hInv.startMem]
      rw [hsn] at hrel
      have hsz : (startNode g).g_score = 0 := rfl
      omega
    have hOIle : (orInsert st current ncoord).g_score ≤ i32MAX := orInsert_g_le_max hInv
    set N1 : Node := ⟨ncoord, current.g_score + 1 + d g.endCell ncoord,
      current.g_score + 1, current.coord⟩ with hN1
    have hN1g : N1.g_score = current.g_score + 1 := rfl
    have hN1f : N1.f_score = current.g_score + 1 + d g.endCell ncoord := rfl
    have hN1cf : N1.came_from = current.coord := rfl
    have hstart' : (if g.start = ncoord then some N1 else st.nodes g.start) =
        some (startNode g) := by
      rw [if_neg (Ne.symm hnstart)]
      exact hInv.startMem
    have hEntry : ∀ c e, (if c = ncoord then some N1 else st.nodes c) = some e →
        0 ≤ e.g_score ∧ e.g_score ≤ i32MAX ∧
        (c ≠ g.start → ValidCell g c ∧ Adjacent e.came_from c ∧
          (∃ e2, (if e.came_from = ncoord then some N1 else st.nodes e.came_from) =
            some e2 ∧ e2.g_score < e.g_score) ∧
          (e.g_score < i32MAX → e.f_score = e.g_score + d g.endCell c)) := by
      intro c e hce
      by_cases hc : c = ncoord
      · subst hc
        rw [if_pos rfl] at hce
        obtain rfl := Option.some.inj hce
        refine ⟨by rw [hN1g]; omega, by rw [hN1g]; omega, fun _ => ?_⟩
        refine ⟨hval, by rw [hN1cf]; exact hadj, ?_, fun _ => by rw [hN1f, hN1g]⟩
        refine ⟨ec, ?_, ?_⟩
        · rw [hN1cf, if_neg hnecur]
          exact hec
        · rw [hN1g]; omega
      · rw [if_neg hc] at hce
        obtain ⟨h1, h2, h3⟩ := hInv.mapOk c e hce
        refine ⟨h1, h2, fun hne => ?_⟩
        obtain ⟨hv, ha, ⟨e2, he2, he2lt⟩, hf⟩ := h3 hne
        refine ⟨hv, ha, ?_, hf⟩
        by_cases hcf : e.came_from = ncoord
        · refine ⟨N1, by rw [if_pos hcf], ?_⟩
          have hsg : storedG st ncoord = (orInsert st current ncoord).g_score :=
            storedG_eq_orInsert
          have hsg2 : storedG st ncoord = e2.g_score := by
            unfold storedG
            rw [← hcf, he2]
          rw [hN1g]
          omega
        · exact ⟨e2, by rw [if_neg hcf]; exact he2, he2lt⟩
    have hHeapEntry : ∀ n : Node, (∃ e, st.nodes n.coord = some e ∧ e.g_score ≤ n.g_score) →
        ∃ e, (if n.coord = ncoord then some N1 else st.nodes n.coord) = some e ∧
          e.g_score ≤ n.g_score := by
      intro n ⟨e, he, hle⟩
      by_cases hc : n.coord = ncoord
      · refine ⟨N1, by rw [if_pos hc], ?_⟩
        have hsg : storedG st ncoord = (orInsert st current ncoord).g_score :=
          storedG_eq_orInsert
        have hsg2 : storedG st ncoord = e.g_score := by
          unfold storedG
          rw [← hc, he]
        rw [hN1g]
        omega
      · exact ⟨e, by rw [if_neg hc]; exact he, hle⟩
    have hCur' : ∃ e, (if current.coord = ncoord then some N1
        else st.nodes current.coord) = some e ∧ e.g_score ≤ current.g_score := by
      refine ⟨ec, ?_, hecle⟩
      rw [if_neg hnecur]
      exact hec
    by_cases hmem : ncoord ∈ st.openMap
    · rw [if_pos hmem]
      refine ⟨⟨?_, hstart', hEntry⟩, hc0, hc1, hCur'⟩
      intro n hn
      obtain ⟨hcoord, hg0, hg1, hentry⟩ := hInv.heapOk n hn
      exact ⟨hcoord, hg0, hg1, hHeapEntry n hentry⟩
    · rw [if_neg hmem]
      refine ⟨⟨?_, hstart', hEntry⟩, hc0, hc1, hCur'⟩
      intro n hn
      rcases heapPush_subset _ _ n hn with rfl | hn2
      · refine ⟨Or.inr hval, by rw [hN1g]; omega, ?_, N1, ?_, le_refl _⟩
        · rw [hN1g]
          omega
        · show (if (ncoord : Int × Int) = ncoord then some N1 else st.nodes ncoord) = some N1
          rw [if_pos rfl]
      · obtain ⟨hcoord, hg0, hg1, hentry⟩ := hInv.heapOk n hn2
        exact ⟨hcoord, hg0, hg1, hHeapEntry n hentry⟩
  · rw [if_neg hrel]
    cases hent : st.nodes ncoord with
    | some n =>
      have hfun : (fun c => if c = ncoord then some (orInsert st current ncoord)
          else st.nodes c) = st.nodes := by
        funext c
        by_cases hc : c = ncoord
        · have horis : orInsert st current ncoord = n := by
            unfold orInsert; rw [hent]
          rw [if_pos hc, horis, hc, hent]
        · rw [if_neg hc]
      have hsteq : ({ st with nodes := fun c =>
          if c = ncoord then some (orInsert st current ncoord) else st.nodes c } :
            SearchState) = st := by
        rw [hfun]
      rw [hsteq]
      exact ⟨hInv, hc0, hc1, ec, hec, hecle⟩
    | none =>
      have hnstart : ncoord ≠ g.start := by
        intro hcon
        rw [hcon, hInv.startMem] at hent
        exact Option.noConfusion hent
      have horis : orInsert st current ncoord =
          ⟨ncoord, i32MAX, i32MAX, current.coord⟩ := by
        unfold orInsert; rw [hent]
      rw [horis]
      set N0 : Node := ⟨ncoord, i32MAX, i32MAX, current.coord⟩ with hN0
      have hg : N0.g_score = i32MAX := rfl
      have hcf0 : N0.came_from = current.coord := rfl
      have hCur' : ∃ e, (if current.coord = ncoord then some N0
          else st.nodes current.coord) = some e ∧ e.g_score ≤ current.g_score := by
        refine ⟨ec, ?_, hecle⟩
        rw [if_neg hnecur]
        exact hec
      refine ⟨⟨?_, ?_, ?_⟩, hc0, hc1, hCur'⟩
      · intro m hm
        obtain ⟨hcoord, hg0, hg1, e, he, hle⟩ := hInv.heapOk m hm
        by_cases hc : m.coord = ncoord
        · rw [hc, hent] at he
          exact Option.noConfusion he
        · refine ⟨hcoord, hg0, hg1, e, ?_, hle⟩
          show (if m.coord = ncoord then some N0 else st.nodes m.coord) = some e
          rw [if_neg hc]
          exact he
      · show (if g.start = ncoord then some N0 else st.nodes g.start) =
          some (startNode g)
        rw [if_neg (Ne.symm hnstart)]
        exact hInv.startMem
      · intro c e hce
        have hce' : (if c = ncoord then some N0 else st.nodes c) = some e := hce
        by_cases hc : c = ncoord
        · subst hc
          rw [if_pos rfl] at hce'
          obtain rfl := Option.some.inj hce'
          refine ⟨by rw [hg]; decide, by rw [hg], fun _ => ?_⟩
          refine ⟨hval, by rw [hcf0]; exact hadj, ?_,
            fun hlt => absurd hlt (by rw [hg]; exact lt_irrefl _)⟩
          refine ⟨ec, ?_, ?_⟩
          · show (if N0.came_from = c then some N0 else st.nodes N0.came_from) = some ec
            rw [hcf0, if_neg hnecur]
            exact hec
          · rw [hg]
            omega
        · rw [if_neg hc] at hce'
          obtain ⟨h1, h2, h3⟩ := hInv.mapOk c e hce'
          refine ⟨h1, h2, fun hne => ?_⟩
          obtain ⟨hv, ha, ⟨e2, he2, he2lt⟩, hf⟩ := h3 hne
          have hcf : e.came_from ≠ ncoord := by
            intro hcon
            rw [hcon, hent] at he2
            exact Option.noConfusion he2
          refine ⟨hv, ha, ⟨e2, ?_, he2lt⟩, hf⟩
          show (if e.came_from = ncoord then some N0 else st.nodes e.came_from) = some e2
          rw [if_neg hcf]
          exact he2

theorem foldl_expand_inv {g : Grid} {current : Node} :
    ∀ l : List (Int × Int), (∀ x ∈ l, x ∈ neighborsOf g current.coord) →
      ∀ st : SearchState, Inv g st → CurrentOk st current →
        Inv g (l.foldl (expandOne g current) st) ∧
          CurrentOk (l.foldl (expandOne g current) st) current := by
  intro l
  induction l with
  | nil => intro _ st hI hC; exact ⟨hI, hC⟩
  | cons a t ih =>
    intro hmem st hI hC
    rw [List.foldl_cons]
    obtain ⟨hI2, hC2⟩ := expandOne_inv hI hC (hmem a (List.mem_cons_self _ _))
    exact ih (fun x hx => hmem x (List.mem_cons_of_mem _ hx)) _ hI2 hC2

theorem expand_inv {g : Grid} {current : Node} {st : SearchState}
    (hI : Inv g st) (hC : CurrentOk st current) :
    Inv g (expand g current st) ∧ CurrentOk (expand g current st) current :=
  foldl_expand_inv _ (fun _ hx => hx) st hI hC

theorem searchLoop_inv {g : Grid} :
    ∀ (fuel : Nat) (st : SearchState) (res : Option Node) (st' : SearchState),
      Inv g st → searchLoop g fuel st = some (res, st') →
      Inv g st' ∧ ∀ n, res = some n → n.coord = g.endCell ∧ 0 ≤ n.g_score ∧
        n.g_score ≤ i32MAX - 1 ∧ ∃ e, st'.nodes n.coord = some e ∧
          e.g_score ≤ n.g_score := by
  intro fuel
  induction fuel with
  | zero => intro st res st' _ h; exact absurd h (by simp [searchLoop])
  | succ f ih =>
    intro st res st' hI hrun
    rw [searchLoop] at hrun
    cases hpop : heapPop st.openSet with
    | none =>
      rw [hpop] at hrun
      simp only [Option.some.injEq, Prod.mk.injEq] at hrun
      obtain ⟨rfl, rfl⟩ := hrun
      exact ⟨hI, fun n hn => absurd hn (by simp)⟩
    | some pr =>
      obtain ⟨current, rest⟩ := pr
      rw [hpop] at hrun
      simp only [] at hrun
      have hmemcur : current ∈ st.openSet := (heapPop_spec hpop).1
      obtain ⟨hcoordcur, hg0cur, hg1cur, hentcur⟩ := hI.heapOk current hmemcur
      have hI1 : Inv g ⟨rest, st.openMap.erase current.coord, st.nodes⟩ := by
        refine ⟨?_, hI.startMem, hI.mapOk⟩
        intro n hn
        exact hI.heapOk n ((heapPop_spec hpop).2.1 n hn)
      have hcur1 : CurrentOk ⟨rest, st.openMap.erase current.coord, st.nodes⟩ current :=
        ⟨hg0cur, hg1cur, hentcur⟩
      by_cases hend : current.coord = g.endCell
      · rw [if_pos hend] at hrun
        simp only [Option.some.injEq, Prod.mk.injEq] at hrun
        obtain ⟨rfl, rfl⟩ := hrun
        refine ⟨hI1, fun n hn => ?_⟩
        obtain rfl := Option.some.inj hn
        exact ⟨hend, hg0cur, hg1cur, hentcur⟩
      · rw [if_neg hend] at hrun
        obtain ⟨hI2, _⟩ := expand_inv hI1 hcur1
        exact ih _ _ _ hI2 hrun

theorem reconstruct_spec {g : Grid} {st : SearchState} (hInv : Inv g st) :
    ∀ (fuel : Nat) (c : Int × Int) (e : Node) (acc : List (Int × Int)),
      st.nodes c = some e → e.g_score.toNat < fuel →
      ∃ l, reconstruct g st.nodes fuel c acc = acc ++ l ∧ l ≠ [] ∧
        l.head? = some c ∧ l.getLast? = some g.start ∧ List.Chain' Adjacent l ∧
        (∀ x ∈ l, x ≠ g.start → ValidCell g x) := by
  intro fuel
  induction fuel with
  | zero => intro c e acc _ h; omega
  | succ f ih =>
    intro c e acc hce hfuel
    rw [reconstruct]
    by_cases hc : c = g.start
    · rw [if_pos hc]
      refine ⟨[g.start], rfl, by simp, by simp [hc], by simp, List.chain'_singleton _, ?_⟩
      intro x hx hne
      rcases List.mem_singleton.1 hx with rfl
      exact absurd rfl hne
    · rw [if_neg hc]
      obtain ⟨h1, h2, h3⟩ := hInv.mapOk c e hce
      obtain ⟨hv, ha, ⟨e2, he2, he2lt⟩, _⟩ := h3 hc
      have hg20 : 0 ≤ e2.g_score := (hInv.mapOk _ _ he2).1
      have hfuel2 : e2.g_score.toNat < f := by omega
      obtain ⟨l2, heq, hne2, hhead2, hlast2, hchain2, hvalid2⟩ :=
        ih e.came_from e2 (acc ++ [c]) he2 hfuel2
      refine ⟨c :: l2, ?_, by simp, by simp, ?_, ?_, ?_⟩
      · rw [hce]
        simp only []
        rw [heq, List.append_assoc]
        rfl
      · cases l2 with
        | nil => exact absurd rfl hne2
        | cons y t => rw [List.getLast?_cons_cons]; exact hlast2
      · rw [List.chain'_cons']
        refine ⟨?_, hchain2⟩
        intro y hy
        cases l2 with
        | nil => exact absurd rfl hne2
        | cons z t =>
          simp only [List.head?_cons, Option.mem_def, Option.some.injEq] at hy
          have hz : z = e.came_from := by
            simpa using hhead2
          rw [← hy, hz]
          exact ha.symm
      · intro x hx hne
        rcases List.mem_cons.1 hx with rfl | hx2
        · exact hv
        · exact hvalid2 x hx2 hne

theorem path_cases (g : Grid) :
    g.path = [] ∨ (g.path ≠ [] ∧ g.path.head? = some g.endCell ∧
      g.path.getLast? = some g.start ∧ List.Chain' Adjacent g.path ∧
      (∀ x ∈ g.path, x ≠ g.start → ValidCell g x)) := by
  cases hrun : searchLoop g (sufficientFuel g) (initState g) with
  | none =>
    left
    unfold Grid.path
    rw [hrun]
  | some pr =>
    obtain ⟨res, st⟩ := pr
    cases res with
    | none =>
      left
      unfold Grid.path
      rw [hrun]
    | some n =>
      obtain ⟨hIst, hfound⟩ := searchLoop_inv _ _ _ _ (inv_init g) hrun
      obtain ⟨hcoord, hg0, hg1, e, he, hle⟩ := hfound n rfl
      have hg0e : 0 ≤ e.g_score := (hIst.mapOk _ _ he).1
      have hfl : e.g_score.toNat < i32MAX.toNat := by
        have : (0 : Int) < i32MAX := by decide
        omega
      obtain ⟨l, heq, hnel, hh, hl, hch, hval⟩ :=
        reconstruct_spec hIst i32MAX.toNat n.coord e [] he hfl
      have hpath : g.path = l := by
        unfold Grid.path
        rw [hrun]
        simp only []
        rw [heq]
        simp
      right
      rw [hpath]
      exact ⟨hnel, hcoord ▸ hh, hl, hch, hval⟩

/-! ## Termination of the search loop -/

theorem storedG_some {st : SearchState} {c : Int × Int} {e : Node}
    (h : st.nodes c = some e) : storedG st c = e.g_score := by
  unfold storedG
  rw [h]

theorem storedG_none {st : SearchState} {c : Int × Int}
    (h : st.nodes c = none) : storedG st c = i32MAX := by
  unfold storedG
  rw [h]

theorem storedG_congr {st st' : SearchState} {c : Int × Int}
    (h : st'.nodes c = st.nodes c) : storedG st' c = storedG st c := by
  unfold storedG
  rw [h]

theorem mem_cells_of_valid {g : Grid} {c : Int × Int} (hval : ValidCell g c) :
    c ∈ Cells g := by
  unfold Cells
  apply Finset.mem_insert_of_mem
  rw [Finset.mem_product]
  obtain ⟨_, hb⟩ := hval
  unfold InBounds at hb
  constructor <;> rw [Finset.mem_Icc] <;> omega

theorem expandOne_measure_le {g : Grid} {current : Node} {st : SearchState}
    {ncoord : Int × Int} (_hInv : Inv g st) (hCur : CurrentOk st current)
    (hN : ncoord ∈ neighborsOf g current.coord) :
    searchMeasure g (expandOne g current st ncoord) ≤ searchMeasure g st := by
  obtain ⟨hval, hadj⟩ := mem_neighborsOf hN
  obtain ⟨hc0, hc1, ec, hec, hecle⟩ := hCur
  have hcells : ncoord ∈ Cells g := mem_cells_of_valid hval
  unfold expandOne
  by_cases hrel : current.g_score + 1 < (orInsert st current ncoord).g_score
  · rw [if_pos hrel]
    set N1 : Node := ⟨ncoord, current.g_score + 1 + d g.endCell ncoord,
      current.g_score + 1, current.coord⟩ with hN1
    have hN1g : N1.g_score = current.g_score + 1 := rfl
    have hsum : ∀ (os : List Node) (om : Finset (Int × Int)),
        (∑ c ∈ Cells g, (storedG ⟨os, om,
            fun c => if c = ncoord then some N1 else st.nodes c⟩ c).toNat) + 1 ≤
          ∑ c ∈ Cells g, (storedG st c).toNat := by
      intro os om
      have hpoint : ∀ c ∈ (Cells g).erase ncoord,
          (storedG ⟨os, om, fun c => if c = ncoord then some N1 else st.nodes c⟩ c).toNat
            = (storedG st c).toNat := by
        intro c hc
        have hcne : c ≠ ncoord := (Finset.mem_erase.1 hc).1
        have hnn : (⟨os, om, fun c => if c = ncoord then some N1 else st.nodes c⟩ :
            SearchState).nodes c = st.nodes c := by
          show (if c = ncoord then some N1 else st.nodes c) = st.nodes c
          rw [if_neg hcne]
        rw [storedG_congr hnn]
      have hn1 : (⟨os, om, fun c => if c = ncoord then some N1 else st.nodes c⟩ :
          SearchState).nodes ncoord = some N1 := by
        show (if ncoord = ncoord then some N1 else st.nodes ncoord) = some N1
        rw [if_pos rfl]
      have hdec1 : storedG ⟨os, om,
          fun c => if c = ncoord then some N1 else st.nodes c⟩ ncoord = N1.g_score :=
        storedG_some hn1
      have hdec2 : storedG st ncoord = (orInsert st current ncoord).g_score :=
        storedG_eq_orInsert
      rw [← Finset.add_sum_erase (Cells g) (fun c => (storedG st c).toNat) hcells,
        ← Finset.add_sum_erase (Cells g) (fun c => (storedG ⟨os, om,
          fun c => if c = ncoord then some N1 else st.nodes c⟩ c).toNat) hcells,
        Finset.sum_congr rfl hpoint]
      have hd1 : (storedG ⟨os, om,
          fun c => if c = ncoord then some N1 else st.nodes c⟩ ncoord).toNat + 1 ≤
          (storedG st ncoord).toNat := by
        rw [hdec1, hdec2, hN1g]
        omega
      omega
    by_cases hmem : ncoord ∈ st.openMap
    · rw [if_pos hmem]
      show (∑ c ∈ Cells g, (storedG ⟨st.openSet, st.openMap,
          fun c => if c = ncoord then some N1 else st.nodes c⟩ c).toNat) +
          st.openSet.length ≤
        (∑ c ∈ Cells g, (storedG st c).toNat) + st.openSet.length
      have := hsum st.openSet st.openMap
      omega
    · rw [if_neg hmem]
      show (∑ c ∈ Cells g, (storedG ⟨heapPush st.openSet N1, insert ncoord st.openMap,
          fun c => if c = ncoord then some N1 else st.nodes c⟩ c).toNat) +
          (heapPush st.openSet N1).length ≤
        (∑ c ∈ Cells g, (storedG st c).toNat) + st.openSet.length
      rw [heapPush_length]
      have := hsum (heapPush st.openSet N1) (insert ncoord st.openMap)
      omega
  · rw [if_neg hrel]
    cases hent : st.nodes ncoord with
    | some n =>
      have hfun : (fun c => if c = ncoord then some (orInsert st current ncoord)
          else st.nodes c) = st.nodes := by
        funext c
        by_cases hc : c = ncoord
        · have horis : orInsert st current ncoord = n := by
            unfold orInsert; rw [hent]
          rw [if_pos hc, horis, hc, hent]
        · rw [if_neg hc]
      have hsteq : ({ st with nodes := fun c =>
          if c = ncoord then some (orInsert st current ncoord) else st.nodes c } :
            SearchState) = st := by
        rw [hfun]
      rw [hsteq]
    | none =>
      have horis : orInsert st current ncoord =
          ⟨ncoord, i32MAX, i32MAX, current.coord⟩ := by
        unfold orInsert; rw [hent]
      rw [horis]
      set N0 : Node := ⟨ncoord, i32MAX, i32MAX, current.coord⟩ with hN0
      show (∑ c ∈ Cells g, (storedG ⟨st.openSet, st.openMap,
          fun c => if c = ncoord then some N0 else st.nodes c⟩ c).toNat) +
          st.openSet.length ≤
        (∑ c ∈ Cells g, (storedG st c).toNat) + st.openSet.length
      have hpt : ∀ c ∈ Cells g,
          (storedG ⟨st.openSet, st.openMap,
            fun c => if c = ncoord then some N0 else st.nodes c⟩ c).toNat
            = (storedG st c).toNat := by
        intro c _
        by_cases hc : c = ncoord
        · have hn0 : (⟨st.openSet, st.openMap,
              fun c => if c = ncoord then some N0 else st.nodes c⟩ :
                SearchState).nodes c = some N0 := by
            show (if c = ncoord then some N0 else st.nodes c) = some N0
            rw [if_pos hc]
          rw [storedG_some hn0, hc, storedG_none hent]
        · have hnn : (⟨st.openSet, st.openMap,
              fun c => if c = ncoord then some N0 else st.nodes c⟩ :
                SearchState).nodes c = st.nodes c := by
            show (if c = ncoord then some N0 else st.nodes c) = st.nodes c
            rw [if_neg hc]
          rw [storedG_congr hnn]
      rw [Finset.sum_congr rfl hpt]

theorem foldl_expand_measure_le {g : Grid} {current : Node} :
    ∀ l : List (Int × Int), (∀ x ∈ l, x ∈ neighborsOf g current.coord) →
      ∀ st : SearchState, Inv g st → CurrentOk st current →
        searchMeasure g (l.foldl (expandOne g current) st) ≤ searchMeasure g st := by
  intro l
  induction l with
  | nil => intro _ st _ _; exact le_refl _
  | cons a t ih =>
    intro hmem st hI hC
    rw [List.foldl_cons]
    obtain ⟨hI2, hC2⟩ := expandOne_inv hI hC (hmem a (List.mem_cons_self _ _))
    calc searchMeasure g (t.foldl (expandOne g current) (expandOne g current st a)) ≤
        searchMeasure g (expandOne g current st a) :=
          ih (fun x hx => hmem x (List.mem_cons_of_mem _ hx)) _ hI2 hC2
      _ ≤ searchMeasure g st := expandOne_measure_le hI hC (hmem a (List.mem_cons_self _ _))

theorem expand_measure_le {g : Grid} {current : Node} {st : SearchState}
    (hI : Inv g st) (hC : CurrentOk st current) :
    searchMeasure g (expand g current st) ≤ searchMeasure g st :=
  foldl_expand_measure_le _ (fun _ hx => hx) st hI hC

theorem searchLoop_isSome {g : Grid} :
    ∀ (fuel : Nat) (st : SearchState), Inv g st → searchMeasure g st < fuel →
      (searchLoop g fuel st).isSome = true := by
  intro fuel
  induction fuel with
  | zero => intro st _ h; omega
  | succ f ih =>
    intro st hI hlt
    rw [searchLoop]
    cases hpop : heapPop st.openSet with
    | none => rfl
    | some pr =>
      obtain ⟨current, rest⟩ := pr
      simp only []
      by_cases hend : current.coord = g.endCell
      · rw [if_pos hend]
        rfl
      · rw [if_neg hend]
        have hmemcur : current ∈ st.openSet := (heapPop_spec hpop).1
        obtain ⟨hcoordcur, hg0cur, hg1cur, hentcur⟩ := hI.heapOk current hmemcur
        have hI1 : Inv g ⟨rest, st.openMap.erase current.coord, st.nodes⟩ := by
          refine ⟨?_, hI.startMem, hI.mapOk⟩
          intro n hn
          exact hI.heapOk n ((heapPop_spec hpop).2.1 n hn)
        have hcur1 : CurrentOk ⟨rest, st.openMap.erase current.coord, st.nodes⟩ current :=
          ⟨hg0cur, hg1cur, hentcur⟩
        obtain ⟨hI2, _⟩ := expand_inv hI1 hcur1
        apply ih _ hI2
        have hm1 : searchMeasure g
            (expand g current ⟨rest, st.openMap.erase current.coord, st.nodes⟩) ≤
            searchMeasure g ⟨rest, st.openMap.erase current.coord, st.nodes⟩ :=
          expand_measure_le hI1 hcur1
        have hm2 : searchMeasure g (⟨rest, st.openMap.erase current.coord, st.nodes⟩ :
            SearchState) + 1 = searchMeasure g st := by
          show ((∑ c ∈ Cells g, (storedG (⟨rest, st.openMap.erase current.coord,
              st.nodes⟩ : SearchState) c).toNat) + rest.length) + 1 =
            (∑ c ∈ Cells g, (storedG st c).toNat) + st.openSet.length
          have hsame : ∀ c ∈ Cells g, (storedG (⟨rest, st.openMap.erase current.coord,
              st.nodes⟩ : SearchState) c).toNat = (storedG st c).toNat := by
            intro c _
            rw [@storedG_congr st ⟨rest, st.openMap.erase current.coord, st.nodes⟩ c rfl]
          rw [Finset.sum_congr rfl hsame]
          have := (heapPop_spec hpop).2.2
          omega
        omega

theorem measure_init_lt (g : Grid) :
    searchMeasure g (initState g) < sufficientFuel g := by
  have hlen : (initState g).openSet.length = 1 := rfl
  have hterm : ∀ c ∈ Cells g, (storedG (initState g) c).toNat ≤ i32MAX.toNat := by
    intro c _
    by_cases hc : c = g.start
    · have hn : (initState g).nodes c = some (startNode g) := by
        show (if c = g.start then some (startNode g) else none) = some (startNode g)
        rw [if_pos hc]
      rw [storedG_some hn]
      show (0 : Int).toNat ≤ i32MAX.toNat
      decide
    · have hn : (initState g).nodes c = none := by
        show (if c = g.start then some (startNode g) else none) = none
        rw [if_neg hc]
      rw [storedG_none hn]
  have hsum : (∑ c ∈ Cells g, (storedG (initState g) c).toNat) ≤
      (Cells g).card * i32MAX.toNat := by
    calc (∑ c ∈ Cells g, (storedG (initState g) c).toNat) ≤
        (Cells g).card • i32MAX.toNat := Finset.sum_le_card_nsmul _ _ _ hterm
      _ = (Cells g).card * i32MAX.toNat := smul_eq_mul _
  have hcard : (Cells g).card ≤ g.width.toNat * g.height.toNat + 1 := by
    unfold Cells
    calc (insert g.start (Finset.Icc 0 (g.width - 1) ×ˢ Finset.Icc 0 (g.height - 1))).card
        ≤ (Finset.Icc (0 : Int) (g.width - 1) ×ˢ Finset.Icc (0 : Int) (g.height - 1)).card
          + 1 := Finset.card_insert_le _ _
      _ = (Finset.Icc (0 : Int) (g.width - 1)).card *
          (Finset.Icc (0 : Int) (g.height - 1)).card + 1 := by rw [Finset.card_product]
      _ = g.width.toNat * g.height.toNat + 1 := by
          rw [Int.card_Icc, Int.card_Icc]
          have h1 : (g.width - 1 + 1 - 0 : Int) = g.width := by ring
          have h2 : (g.height - 1 + 1 - 0 : Int) = g.height := by ring
          rw [h1, h2]
  have hmul : (Cells g).card * i32MAX.toNat ≤
      (g.width.toNat * g.height.toNat + 1) * i32MAX.toNat :=
    Nat.mul_le_mul_right _ hcard
  unfold searchMeasure sufficientFuel
  omega


/-! ## Unfolding helpers for concrete runs -/

theorem searchLoop_unfold (g : Grid) (fuel : Nat) (st : SearchState) (h : fuel ≠ 0) :
    searchLoop g fuel st =
      match heapPop st.openSet with
      | none => some (none, st)
      | some (current, rest) =>
        if current.coord = g.endCell then
          some (some current, ⟨rest, st.openMap.erase current.coord, st.nodes⟩)
        else
          searchLoop g (fuel - 1)
            (expand g current ⟨rest, st.openMap.erase current.coord, st.nodes⟩) := by
  cases fuel with
  | zero => exact absurd rfl h
  | succ f => rfl

theorem reconstruct_unfold (g : Grid) (nodes : (Int × Int) → Option Node) (fuel : Nat)
    (c : Int × Int) (acc : List (Int × Int)) (h : fuel ≠ 0) :
    reconstruct g nodes fuel c acc =
      if c = g.start then acc ++ [g.start]
      else
        match nodes c with
        | none => acc
        | some n => reconstruct g nodes (fuel - 1) n.came_from (acc ++ [c]) := by
  cases fuel with
  | zero => exact absurd rfl h
  | succ f => rfl

/-! ## Coordinates reachable by the search -/

theorem expandOne_openSet_coords {g : Grid} {current : Node} {st : SearchState}
    {ncoord : Int × Int} :
    ∀ y ∈ (expandOne g current st ncoord).openSet, y ∈ st.openSet ∨ y.coord = ncoord := by
  intro y hy
  unfold expandOne at hy
  by_cases hrel : current.g_score + 1 < (orInsert st current ncoord).g_score
  · rw [if_pos hrel] at hy
    by_cases hmem : ncoord ∈ st.openMap
    · rw [if_pos hmem] at hy
      exact Or.inl hy
    · rw [if_neg hmem] at hy
      rcases heapPush_subset _ _ y hy with rfl | h
      · exact Or.inr rfl
      · exact Or.inl h
  · rw [if_neg hrel] at hy
    exact Or.inl hy

theorem foldl_expand_coords {g : Grid} {current : Node} (P : (Int × Int) → Prop) :
    ∀ l : List (Int × Int), (∀ x ∈ l, P x) → ∀ st : SearchState,
      (∀ m ∈ st.openSet, P m.coord) →
      ∀ m ∈ (l.foldl (expandOne g current) st).openSet, P m.coord := by
  intro l
  induction l with
  | nil => intro _ st hst m hm; exact hst m hm
  | cons a t ih =>
    intro hl st hst m hm
    rw [List.foldl_cons] at hm
    refine ih (fun x hx => hl x (List.mem_cons_of_mem _ hx)) _ ?_ m hm
    intro m2 hm2
    rcases expandOne_openSet_coords m2 hm2 with h | h
    · exact hst m2 h
    · rw [h]
      exact hl a (List.mem_cons_self _ _)

theorem searchLoop_closed {g : Grid} (P : (Int × Int) → Prop)
    (hcl : ∀ c, P c → ∀ c2 ∈ neighborsOf g c, P c2) :
    ∀ (fuel : Nat) (st : SearchState) (n : Node) (st' : SearchState),
      (∀ m ∈ st.openSet, P m.coord) →
      searchLoop g fuel st = some (some n, st') → P n.coord := by
  intro fuel
  induction fuel with
  | zero => intro st n st' _ h; exact absurd h (by simp [searchLoop])
  | succ f ih =>
    intro st n st' hst hrun
    rw [searchLoop] at hrun
    cases hpop : heapPop st.openSet with
    | none =>
      rw [hpop] at hrun
      simp only [Option.some.injEq, Prod.mk.injEq] at hrun
      exact absurd hrun.1 (by simp)
    | some pr =>
      obtain ⟨current, rest⟩ := pr
      rw [hpop] at hrun
      simp only [] at hrun
      have hPc : P current.coord := hst current (heapPop_spec hpop).1
      by_cases hend : current.coord = g.endCell
      · rw [if_pos hend] at hrun
        simp only [Option.some.injEq, Prod.mk.injEq] at hrun
        obtain ⟨heq, _⟩ := hrun
        exact heq ▸ hPc
      · rw [if_neg hend] at hrun
        refine ih _ _ _ ?_ hrun
        refine foldl_expand_coords P _ (fun x hx => hcl _ hPc x hx) _ ?_
        intro m hm
        exact hst m ((heapPop_spec hpop).2.1 m hm)

/-! ## Rasterization -/

theorem mem_grid_walls (m : Maze) (c : Int × Int) :
    c ∈ m.grid.walls ↔ ∃ w ∈ m.walls,
      ⌊w.1 - m.origin.1⌋ ≤ c.1 ∧ c.1 < ⌈w.1 - m.origin.1 + w.2.2.1⌉ ∧
      ⌊w.2.1 - m.origin.2⌋ ≤ c.2 ∧ c.2 < ⌈w.2.1 - m.origin.2 + w.2.2.2⌉ := by
  have hgen : ∀ (ws : List (ℚ × ℚ × ℚ × ℚ)) (acc : Finset (Int × Int)),
      (c ∈ ws.foldl (fun acc w =>
        acc ∪
          Finset.Icc (⌊w.1 - m.origin.1⌋) (⌈w.1 - m.origin.1 + w.2.2.1⌉ - 1) ×ˢ
            Finset.Icc (⌊w.2.1 - m.origin.2⌋) (⌈w.2.1 - m.origin.2 + w.2.2.2⌉ - 1)) acc ↔
      c ∈ acc ∨ ∃ w ∈ ws,
        ⌊w.1 - m.origin.1⌋ ≤ c.1 ∧ c.1 < ⌈w.1 - m.origin.1 + w.2.2.1⌉ ∧
        ⌊w.2.1 - m.origin.2⌋ ≤ c.2 ∧ c.2 < ⌈w.2.1 - m.origin.2 + w.2.2.2⌉) := by
    intro ws
    induction ws with
    | nil => intro acc; simp
    | cons w t ih =>
      intro acc
      rw [List.foldl_cons, ih]
      constructor
      · rintro (hmem | ⟨w2, hw2, hp⟩)
        · rcases Finset.mem_union.1 hmem with h | h
          · exact Or.inl h
          · right
            refine ⟨w, List.mem_cons_self _ _, ?_⟩
            rw [Finset.mem_product] at h
            obtain ⟨h1, h2⟩ := h
            rw [Finset.mem_Icc] at h1 h2
            omega
        · exact Or.inr ⟨w2, List.mem_cons_of_mem _ hw2, hp⟩
      · rintro (hmem | ⟨w2, hw2, hp⟩)
        · exact Or.inl (Finset.mem_union_left _ hmem)
        · rcases List.mem_cons.1 hw2 with rfl | hw2t
          · left
            apply Finset.mem_union_right
            rw [Finset.mem_product]
            constructor <;> rw [Finset.mem_Icc] <;> omega
          · exact Or.inr ⟨w2, hw2t, hp⟩
  have hw : m.grid.walls = m.walls.foldl (fun acc w =>
      acc ∪
        Finset.Icc (⌊w.1 - m.origin.1⌋) (⌈w.1 - m.origin.1 + w.2.2.1⌉ - 1) ×ˢ
          Finset.Icc (⌊w.2.1 - m.origin.2⌋) (⌈w.2.1 - m.origin.2 + w.2.2.2⌉ - 1)) ∅ := rfl
  rw [hw, hgen]
  simp

/-! ## Claims -/

/-- Claim C1, counterexample: on the 2×1 empty grid with start `(0,0)` and end
`(1,0)` a path is found, but the returned sequence is `[(1,0), (0,0)]` — its
first element is the end cell and its last element is the start cell, because
`reconstruct` never reverses the predecessor walk. -/
theorem c1_counterexample :
    gC1a.path = [(1, 0), (0, 0)] ∧ gC1a.path ≠ [] ∧
    gC1a.path.head? ≠ some gC1a.start ∧ gC1a.path.getLast? ≠ some gC1a.endCell := by
  decide

/-- Claim C1 (amended): whenever `Grid::path` finds a path, the returned
sequence starts with `end_cell` and finishes with `start_cell` — the
predecessor walk from the target back to the start is returned without being
reversed, so the sequence is in end-to-start order. -/
theorem c1_path_endpoints (g : Grid) (hne : g.path ≠ []) :
    g.path.head? = some g.endCell ∧ g.path.getLast? = some g.start := by
  rcases path_cases g with h | ⟨_, hh, hl, _, _⟩
  · exact absurd h hne
  · exact ⟨hh, hl⟩

/-- Witness for `c1_path_endpoints` on a concrete 3×3 grid with walls. -/
theorem c1_path_endpoints_witness :
    gC1b.path ≠ [] ∧ gC1b.path.head? = some gC1b.endCell ∧
      gC1b.path.getLast? = some gC1b.start :=
  ⟨by decide, (c1_path_endpoints gC1b (by decide)).1, (c1_path_endpoints gC1b (by decide)).2⟩

/-- Claim C2, counterexample: on the 1×1 empty grid with the out-of-bounds
start `(-1,0)` and end `(0,0)`, the search still finds a path (the in-bounds
neighbor `(0,0)` of the out-of-bounds start passes the filter), contradicting
the claim that an out-of-bounds start always yields "no path". -/
theorem c2_counterexample :
    ¬ InBounds gC2a gC2a.start ∧ gC2a.start ≠ gC2a.endCell ∧
    gC2a.path = [(0, 0), (-1, 0)] ∧ gC2a.path ≠ [] := by
  decide

/-- Claim C2 (amended): with `start_cell ≠ end_cell`, the search returns the
empty path whenever the END cell is out of bounds (it is never enqueued), and
also whenever the start cell is out of bounds AND none of its four neighbors
passes the validity filter (zero candidate moves, immediate failure).  An
out-of-bounds start whose neighbors include a valid cell can still find a
path (see the counterexample). -/
theorem c2_no_path (g : Grid) (hne : g.start ≠ g.endCell)
    (hcase : ¬ InBounds g g.endCell ∨
      (¬ InBounds g g.start ∧ neighborsOf g g.start = [])) :
    g.path = [] := by
  rcases hcase with hend | ⟨hsoob, hnb⟩
  · cases hrun : searchLoop g (sufficientFuel g) (initState g) with
    | none =>
      unfold Grid.path
      rw [hrun]
    | some pr =>
      obtain ⟨res, st⟩ := pr
      cases res with
      | none =>
        unfold Grid.path
        rw [hrun]
      | some n =>
        exfalso
        have hinit : ∀ m ∈ (initState g).openSet,
            (fun c => c = g.start ∨ ValidCell g c) m.coord := by
          intro m hm
          have hi : (initState g).openSet = [startNode g] := rfl
          rw [hi] at hm
          rcases List.mem_singleton.1 hm with rfl
          exact Or.inl rfl
        have hP := searchLoop_closed (fun c => c = g.start ∨ ValidCell g c)
          (fun c _ c2 hc2 => Or.inr (mem_neighborsOf hc2).1)
          (sufficientFuel g) (initState g) n st hinit hrun
        have hcoord : n.coord = g.endCell :=
          ((searchLoop_inv _ _ _ _ (inv_init g) hrun).2 n rfl).1
        rw [hcoord] at hP
        rcases hP with h | h
        · exact hne h.symm
        · exact hend h.2
  · unfold Grid.path
    rw [searchLoop_unfold _ _ _ (by unfold sufficientFuel; omega)]
    have hpop : heapPop (initState g).openSet = some (startNode g, []) := rfl
    rw [hpop]
    simp only []
    rw [if_neg (show ¬ ((startNode g).coord = g.endCell) from hne)]
    have hexp : expand g (startNode g)
        ⟨[], (initState g).openMap.erase (startNode g).coord, (initState g).nodes⟩ =
        ⟨[], (initState g).openMap.erase (startNode g).coord, (initState g).nodes⟩ := by
      unfold expand
      rw [show neighborsOf g (startNode g).coord = [] from hnb]
      rfl
    rw [hexp]
    rw [searchLoop_unfold _ _ _ (by unfold sufficientFuel; omega)]
    rfl

/-- Witness for `c2_no_path`: a 3×3 empty grid with the out-of-bounds end
`(5,5)` yields the empty path. -/
theorem c2_no_path_witness : gC2b.path = [] :=
  c2_no_path gC2b (by decide) (Or.inl (by decide))

/-- Claim C3, counterexample: on the 2×4 empty grid with in-bounds start
`(0,0)` and end `(0,3)` the search returns a 6-cell path (5 steps) although
the 4-directional grid distance is 3: the returned path length does not equal
the grid distance. -/
theorem c3_counterexample :
    gC3a.walls = ∅ ∧ InBounds gC3a gC3a.start ∧ InBounds gC3a gC3a.endCell ∧
    gC3a.path = [(0, 3), (1, 3), (1, 2), (1, 1), (1, 0), (0, 0)] ∧
    (gC3a.path.length : Int) - 1 = 5 ∧
    |gC3a.endCell.1 - gC3a.start.1| + |gC3a.endCell.2 - gC3a.start.2| = 3 := by
  decide

/-- Claim C3 (amended): for every grid with no blocked cells and in-bounds
start and end, any non-empty path returned by the search has cell count minus
one at least the 4-directional grid distance `|dx| + |dy|`; exact equality
fails in general (see the counterexample). -/
theorem c3_path_length_lower (g : Grid) (_hw : g.walls = ∅) (_hs : InBounds g g.start)
    (_he : InBounds g g.endCell) (hne : g.path ≠ []) :
    |g.endCell.1 - g.start.1| + |g.endCell.2 - g.start.2| + 1 ≤ (g.path.length : Int) := by
  rcases path_cases g with h | ⟨_, hh, hl, hch, _⟩
  · exact absurd h hne
  · exact chain_manhattan _ _ _ hch hh hl

/-- Witness for `c3_path_length_lower` on a 3×3 empty grid. -/
theorem c3_path_length_lower_witness :
    gC3b.path ≠ [] ∧
    |gC3b.endCell.1 - gC3b.start.1| + |gC3b.endCell.2 - gC3b.start.2| + 1 ≤
      (gC3b.path.length : Int) :=
  ⟨by decide, c3_path_length_lower gC3b rfl (by decide) (by decide) (by decide)⟩

/-- Claim C4, counterexample: after the search on the 3×3 empty grid with
start `(0,0)` and end `(2,2)`, the recorded node for `(1,0)` has
`g_score = 1` and `f_score = 4 = g + d(end, coord)`, while the claimed formula
`g + d(coord, end)` gives `-2 ≠ 4`: relaxed neighbors use the argument order
`d(end, coord)`, not `d(coord, end)`. -/
theorem c4_counterexample :
    finalNodes gC4a (1, 0) = some ⟨(1, 0), 4, 1, (0, 0)⟩ ∧
    (1 : Int) + d ((1, 0) : Int × Int) gC4a.endCell ≠ 4 ∧
    (1 : Int) + d gC4a.endCell ((1, 0) : Int × Int) = 4 := by
  decide

/-- Claim C4 (amended): every entry of the `nodes` table at the end of the
search with a finite `g_score` satisfies: the start cell keeps
`f_score = d(start, end)` (node first, target second), while every other
(relaxed) cell satisfies `f_score = g_score + d(end, coord)` — the REVERSED
argument order, target first, node second. -/
theorem c4_f_score (g : Grid) (c : Int × Int) (e : Node)
    (hfn : finalNodes g c = some e) (hlt : e.g_score < i32MAX) :
    (c = g.start → e.f_score = d g.start g.endCell) ∧
    (c ≠ g.start → e.f_score = e.g_score + d g.endCell c) := by
  unfold finalNodes at hfn
  cases hrun : searchLoop g (sufficientFuel g) (initState g) with
  | none =>
    rw [hrun] at hfn
    exact absurd hfn (by simp)
  | some pr =>
    obtain ⟨res, st⟩ := pr
    rw [hrun] at hfn
    simp only [] at hfn
    have hIst := (searchLoop_inv _ _ _ _ (inv_init g) hrun).1
    constructor
    · intro hc
      rw [hc, hIst.startMem] at hfn
      obtain rfl := Option.some.inj hfn
      rfl
    · intro hc
      obtain ⟨_, _, h3⟩ := hIst.mapOk c e hfn
      exact (h3 hc).2.2.2 hlt

/-- Witness for `c4_f_score` on the 2×2 empty grid with start `(0,0)` and end
`(1,1)`: the entry at `(1,0)` is `g = 1`, `f = 2 = g + d(end, (1,0))`. -/
theorem c4_f_score_witness :
    finalNodes gC4b (1, 0) = some ⟨(1, 0), 2, 1, (0, 0)⟩ ∧
    (⟨(1, 0), 2, 1, (0, 0)⟩ : Node).f_score =
      (⟨(1, 0), 2, 1, (0, 0)⟩ : Node).g_score + d gC4b.endCell (1, 0) :=
  ⟨by decide, (c4_f_score gC4b (1, 0) ⟨(1, 0), 2, 1, (0, 0)⟩ (by decide)
    (by decide)).2 (by decide)⟩

/-- Claim C5, counterexample: two nodes with equal `f_score = 5` and
`g_score` 0 and 1; the heap pops the node with the LARGER `g_score` first,
contradicting the claimed ascending-`g_score` tie-break. -/
theorem c5_counterexample :
    heapPop (heapPush (heapPush [] ⟨(0, 0), 5, 0, (0, 0)⟩) ⟨(1, 1), 5, 1, (0, 0)⟩) =
      some (⟨(1, 1), 5, 1, (0, 0)⟩, [⟨(0, 0), 5, 0, (0, 0)⟩]) ∧
    (⟨(1, 1), 5, 1, (0, 0)⟩ : Node).f_score = (⟨(0, 0), 5, 0, (0, 0)⟩ : Node).f_score ∧
    (⟨(0, 0), 5, 0, (0, 0)⟩ : Node).g_score < (⟨(1, 1), 5, 1, (0, 0)⟩ : Node).g_score := by
  decide

/-- Claim C5 (amended): the priority order of the open set (the `Ord`
instance; the max-heap pops a greatest element) ranks `a` above `b` exactly
when `a` has the smaller `f_score`, or the `f_score`s are equal and `a` has
the LARGER `g_score` — ties are broken by descending `g_score` (the node with
more progress from the start is popped first), not ascending. -/
theorem c5_priority_order (a b : Node) :
    nodeCmp a b = Ordering.gt ↔
      (a.f_score < b.f_score ∨ (a.f_score = b.f_score ∧ b.g_score < a.g_score)) := by
  unfold nodeCmp icmp
  by_cases h1 : b.f_score < a.f_score
  · rw [if_pos h1]
    have hred : Ordering.lt.then (if a.g_score < b.g_score then Ordering.lt
        else if a.g_score = b.g_score then Ordering.eq else Ordering.gt) =
        Ordering.lt := rfl
    rw [hred]
    constructor
    · intro hcon
      exact absurd hcon (by decide)
    · intro hcon
      exfalso
      rcases hcon with h | ⟨h, _⟩ <;> omega
  · by_cases h2 : b.f_score = a.f_score
    · rw [if_neg h1, if_pos h2]
      have hred : Ordering.eq.then (if a.g_score < b.g_score then Ordering.lt
          else if a.g_score = b.g_score then Ordering.eq else Ordering.gt) =
          (if a.g_score < b.g_score then Ordering.lt
          else if a.g_score = b.g_score then Ordering.eq else Ordering.gt) := rfl
      rw [hred]
      by_cases h3 : a.g_score < b.g_score
      · rw [if_pos h3]
        constructor
        · intro hcon
          exact absurd hcon (by decide)
        · intro hcon
          exfalso
          rcases hcon with h | ⟨_, h⟩ <;> omega
      · by_cases h4 : a.g_score = b.g_score
        · rw [if_neg h3, if_pos h4]
          constructor
          · intro hcon
            exact absurd hcon (by decide)
          · intro hcon
            exfalso
            rcases hcon with h | ⟨_, h⟩ <;> omega
        · rw [if_neg h3, if_neg h4]
          constructor
          · intro _
            exact Or.inr ⟨h2.symm, by omega⟩
          · intro _
            rfl
    · rw [if_neg h1, if_neg h2]
      have hred : Ordering.gt.then (if a.g_score < b.g_score then Ordering.lt
          else if a.g_score = b.g_score then Ordering.eq else Ordering.gt) =
          Ordering.gt := rfl
      rw [hred]
      constructor
      · intro _
        exact Or.inl (by omega)
      · intro _
        rfl

/-- Claim C6: the blocked set of the rasterized grid is exactly the union over
the obstacle rectangles of the integer cells in the translated
`[floor, ceil)` coordinate ranges; consequently every unit cell whose open
interior meets an obstacle's open interior is blocked.  (`f64` coordinates
are modelled exactly as rationals.) -/
theorem c6_rasterization (m : Maze) (x y : Int) :
    ((x, y) ∈ m.grid.walls ↔ ∃ w ∈ m.walls,
      ⌊w.1 - m.origin.1⌋ ≤ x ∧ x < ⌈w.1 - m.origin.1 + w.2.2.1⌉ ∧
      ⌊w.2.1 - m.origin.2⌋ ≤ y ∧ y < ⌈w.2.1 - m.origin.2 + w.2.2.2⌉) ∧
    (∀ w ∈ m.walls, ∀ p : ℚ × ℚ,
      ((x : ℚ) < p.1 ∧ p.1 < x + 1 ∧ (y : ℚ) < p.2 ∧ p.2 < y + 1) →
      (w.1 - m.origin.1 < p.1 ∧ p.1 < w.1 - m.origin.1 + w.2.2.1 ∧
       w.2.1 - m.origin.2 < p.2 ∧ p.2 < w.2.1 - m.origin.2 + w.2.2.2) →
      (x, y) ∈ m.grid.walls) := by
  constructor
  · exact mem_grid_walls m (x, y)
  · intro w hw p hcell hrect
    obtain ⟨hcx1, hcx2, hcy1, hcy2⟩ := hcell
    obtain ⟨hrx1, hrx2, hry1, hry2⟩ := hrect
    refine (mem_grid_walls m (x, y)).2 ⟨w, hw, ?_, ?_, ?_, ?_⟩
    · have hq : w.1 - m.origin.1 < ((x + 1 : Int) : ℚ) := by
        push_cast
        linarith
      have := Int.floor_lt.2 hq
      omega
    · apply Int.lt_ceil.2
      calc (x : ℚ) < p.1 := hcx1
        _ < w.1 - m.origin.1 + w.2.2.1 := hrx2
    · have hq : w.2.1 - m.origin.2 < ((y + 1 : Int) : ℚ) := by
        push_cast
        linarith
      have := Int.floor_lt.2 hq
      omega
    · apply Int.lt_ceil.2
      calc (y : ℚ) < p.2 := hcy1
        _ < w.2.1 - m.origin.2 + w.2.2.2 := hry2

/-- Witness for `c6_rasterization`: the rectangle at `x = 1.5` of width 2
partly covers cell 3 of row 0 (their open interiors share the point
`(13/4, 1/2)`), so cell `(3, 0)` is blocked. -/
theorem c6_rasterization_witness : ((3 : Int), (0 : Int)) ∈ mC6.grid.walls :=
  (c6_rasterization mC6 3 0).2 (3 / 2, 0, 2, 1) (List.mem_singleton.2 rfl)
    (13 / 4, 1 / 2) (by norm_num) (by norm_num [mC6])

/-- Claim C7: when `start_cell = end_cell` the search pops the start node
first, recognizes it as the target with no neighbor expansion, and the
returned path is the single-cell sequence `[start_cell]`. -/
theorem c7_trivial_path (g : Grid) (hse : g.start = g.endCell) :
    g.path = [g.start] := by
  unfold Grid.path
  rw [searchLoop_unfold _ _ _ (by unfold sufficientFuel; omega)]
  have hpop : heapPop (initState g).openSet = some (startNode g, []) := rfl
  rw [hpop]
  simp only []
  rw [if_pos (show (startNode g).coord = g.endCell from hse)]
  simp only []
  rw [reconstruct_unfold _ _ _ _ _ (by decide)]
  rw [if_pos (show (startNode g).coord = g.start from rfl)]
  rfl

/-- Witness for `c7_trivial_path` on a 3×3 grid with start = end = `(1,1)`. -/
theorem c7_trivial_path_witness : gC7.path = [gC7.start] :=
  c7_trivial_path gC7 rfl

/-- Claim C8: if the start cell lies in a region closed under valid moves (for
instance the inside of a gap-free ring of blocked cells) that does not contain
the end cell, the open set is exhausted without popping the target and the
search returns the empty sequence as an ordinary, non-error result. -/
theorem c8_unreachable (g : Grid) (C : Finset (Int × Int)) (hstart : g.start ∈ C)
    (hclosed : ∀ c ∈ C, ∀ c2 ∈ neighborsOf g c, c2 ∈ C) (hend : g.endCell ∉ C) :
    g.path = [] := by
  cases hrun : searchLoop g (sufficientFuel g) (initState g) with
  | none =>
    unfold Grid.path
    rw [hrun]
  | some pr =>
    obtain ⟨res, st⟩ := pr
    cases res with
    | none =>
      unfold Grid.path
      rw [hrun]
    | some n =>
      exfalso
      have hinit : ∀ m ∈ (initState g).openSet, m.coord ∈ C := by
        intro m hm
        have hi : (initState g).openSet = [startNode g] := rfl
        rw [hi] at hm
        rcases List.mem_singleton.1 hm with rfl
        exact hstart
      have hP := searchLoop_closed (fun c => c ∈ C)
        (fun c hc c2 hc2 => hclosed c hc c2 hc2)
        (sufficientFuel g) (initState g) n st hinit hrun
      have hcoord : n.coord = g.endCell :=
        ((searchLoop_inv _ _ _ _ (inv_init g) hrun).2 n rfl).1
      rw [hcoord] at hP
      exact hend hP

/-- Witness for `c8_unreachable`: on the 5×5 grid whose start `(2,2)` is
enclosed by a ring of 8 blocked cells, with end `(0,0)`, the path is empty. -/
theorem c8_unreachable_witness : gC8.path = [] :=
  c8_unreachable gC8 c8Region (by decide) (by decide) (by decide)

/-- Claim C9: the search loop of `Grid::path` always terminates — with the
fuel `sufficientFuel` used by `Grid.path`, the fueled loop never runs out: a
coordinate is re-inserted into the open set only when its recorded `g_score`
strictly decreases, `g_score`s are bounded below by 0, and every recorded
coordinate lies in the finite set `Cells`, so the measure `searchMeasure`
strictly decreases at every pop. -/
theorem c9_search_terminates (g : Grid) :
    (searchLoop g (sufficientFuel g) (initState g)).isSome = true :=
  searchLoop_isSome _ _ (inv_init g) (measure_init_lt g)

/-- Claim C10: every cell of a returned path other than the start cell is
inside `[0,width) × [0,height)` and not blocked, and consecutive cells are
4-adjacent; the start cell is exempt (its bounds and blocked-status are never
checked), so a blocked or out-of-bounds start cell can still appear in a
returned path. -/
theorem c10_path_cells (g : Grid) :
    List.Chain' Adjacent g.path ∧ ∀ c ∈ g.path, c ≠ g.start → ValidCell g c := by
  rcases path_cases g with h | ⟨_, _, _, hch, hval⟩
  · rw [h]
    exact ⟨List.chain'_nil, by simp⟩
  · exact ⟨hch, hval⟩

/-- Witness for `c10_path_cells` on the 1×1 grid with out-of-bounds start
`(-1,0)`: the path is `[(0,0), (-1,0)]`; the non-start cell `(0,0)` is valid,
consecutive cells are adjacent, and the out-of-bounds start cell itself
appears in the path. -/
theorem c10_path_cells_witness :
    List.Chain' Adjacent gC10.path ∧ ValidCell gC10 (0, 0) ∧
    gC10.start ∈ gC10.path ∧ ¬ InBounds gC10 gC10.start :=
  ⟨(c10_path_cells gC10).1, (c10_path_cells gC10).2 (0, 0) (by decide) (by decide),
    by decide, by decide⟩

end CpmMaze
